import Mathlib

/-!
# Activity-Ranking: a verification development

A shallow embedding of `main.go` (package `main` of kazoJP/Activity-Ranking):
the activity score, the record validation of the producer and of the worker,
the aggregation into the shared map, the ranking and the report loop.

Go's `int` is taken as the 64-bit signed integer: values are `Int`, and every
arithmetic operation of the source is followed by an explicit reduction into
`[-2^63, 2^63)`.
-/

namespace ActivityRanking

/-! ## Go's `int` -/

/-- Reduction of a mathematical integer into the range of Go's 64-bit `int`
(two's complement wrap-around, which is what `+` and `*` do on overflow). -/
def wrap64 (x : Int) : Int :=
  (x + 9223372036854775808) % 18446744073709551616 - 9223372036854775808

/-- Go's `a + b` on `int`. -/
def goAdd (a b : Int) : Int := wrap64 (a + b)

/-- Go's `a * b` on `int`. -/
def goMul (a b : Int) : Int := wrap64 (a * b)

/-- The values a Go `int` can hold. -/
def IsInt64 (x : Int) : Prop := -9223372036854775808 ≤ x ∧ x ≤ 9223372036854775807

instance (x : Int) : Decidable (IsInt64 x) :=
  inferInstanceAs (Decidable (-9223372036854775808 ≤ x ∧ x ≤ 9223372036854775807))

/-! ## `calculateActivityScore` (main.go, lines 193-196) -/

/-- The function `calculateActivityScore`: `files*additions + deletions` in Go's `int`. -/
def calculateActivityScore (files additions deletions : Int) : Int :=
  goAdd (goMul files additions) deletions

/-! ## `strconv.Atoi`

`strconv.Atoi` belongs to Go's standard library. Its documented behaviour for
a 64-bit `int`: the text is an optional sign `+` or `-` followed by one or more
decimal digits and nothing else (otherwise a syntax error), and the value must
lie in the range of `int` (otherwise a range error). -/

/-- The value of a decimal digit, `none` for any other character. -/
def digitValue (c : Char) : Option Nat :=
  if 48 ≤ c.toNat ∧ c.toNat ≤ 57 then some (c.toNat - 48) else none

/-- Reads a run of decimal digits, most significant first, onto the accumulator. -/
def parseDigits : List Char → Nat → Option Nat
  | [], acc => some acc
  | c :: cs, acc =>
    match digitValue c with
    | some d => parseDigits cs (acc * 10 + d)
    | none => none

/-- A base-10 integer literal as `strconv` reads it: optional sign, then at
least one digit. The value is not bounded here. -/
def decimalInt (s : String) : Option Int :=
  match s.data with
  | [] => none
  | '-' :: ds => if ds = [] then none else (parseDigits ds 0).map (fun n => -(n : Int))
  | '+' :: ds => if ds = [] then none else (parseDigits ds 0).map (fun n => (n : Int))
  | ds => (parseDigits ds 0).map (fun n => (n : Int))

/-- The function `strconv.Atoi`: `some n` stands for `(n, nil)`, `none` for a
non-nil error (syntax or range). -/
def Atoi (s : String) : Option Int :=
  match decimalInt s with
  | some n => if IsInt64 n then some n else none
  | none => none

/-! ## The shared map -/

/-- Modelled from the spec: the declaration of the type `RankedRepo` is not
among the sources. The spec gives it as `{repository: string, score: integer}`;
`main.go` reads and writes only the field `Score` and builds new values with
`RankedRepo{Score: score}`, which leaves every other field at its zero value. -/
structure RankedRepo where
  Repository : String
  Score : Int
  deriving DecidableEq, Repr

/-- The entries of a Go `map[string]RankedRepo`, one pair per key. The order of
the list is the order in which a `range` over the map visits the entries in the
run under consideration; Go leaves that order unspecified. -/
abbrev GoMap := List (String × RankedRepo)

/-- The map expression `repos[k]` in its two-valued form `v, found := repos[k]`. -/
def GoMap.get : GoMap → String → Option RankedRepo
  | [], _ => none
  | (k', v) :: rest, k => if k' = k then some v else GoMap.get rest k

/-- The assignment `repos[k] = v` on a non-nil map: an existing key keeps its
entry and takes the new value, a new key gets a new entry. -/
def GoMap.set : GoMap → String → RankedRepo → GoMap
  | [], k, v => [(k, v)]
  | (k', v') :: rest, k, v =>
    if k' = k then (k, v) :: rest else (k', v') :: GoMap.set rest k v

/-- A Go `map` has one entry per key. -/
def GoMap.WF (m : GoMap) : Prop := (m.map Prod.fst).Nodup

instance (m : GoMap) : Decidable m.WF :=
  inferInstanceAs (Decidable (m.map Prod.fst).Nodup)

/-- A variable of type `map[string]RankedRepo`: `none` is the nil map (it
reads as an empty map and any assignment to it panics), `some m` a map made
with `make` or a literal. -/
abbrev Repos := Option GoMap

/-- The two-valued read `repos[k]`, also on a nil map. -/
def Repos.get : Repos → String → Option RankedRepo
  | none, _ => none
  | some m, k => m.get k

/-- The built-in `len(repos)`. -/
def Repos.len : Repos → Nat
  | none => 0
  | some m => m.length

/-- A run-time panic of the Go program. -/
inductive Panic where
  | indexOutOfRange
  | nilMapAssignment
  deriving DecidableEq, Repr

deriving instance DecidableEq for Except

/-! ## The records -/

/-- A record as `csv.Reader.Read` returns it: the fields of one line. -/
abbrev Record := List String

/-- The producer's check of `readCSVConcurrently` (main.go, line 113): `true`
when the record is skipped there, before it reaches the channel. -/
def missingRequiredFields (record : Record) : Bool :=
  decide (record.length < 6) || record.getD 2 "" == "" || record.getD 3 "" == ""
    || record.getD 4 "" == "" || record.getD 5 "" == ""

/-- The closure `processField` of `worker` (main.go, lines 134-141); the log
line is not modelled. -/
def processField (value : String) : Int × Bool :=
  match Atoi value with
  | some num => if num < 0 then (0, false) else (num, true)
  | none => (0, false)

/-- The index expression `record[i]` of Go, which panics out of range. -/
def index (record : Record) (i : Nat) : Except Panic String :=
  match record.get? i with
  | some s => .ok s
  | none => .error Panic.indexOutOfRange

/-- The critical section of `worker` (main.go, lines 157-164): read or create
the entry, add the score, write back. -/
def merge (repos : Repos) (repoName : String) (score : Int) : Except Panic Repos :=
  match repos with
  | none => .error Panic.nilMapAssignment
  | some m =>
    match m.get repoName with
    | some existing => .ok (some (m.set repoName { existing with Score := goAdd existing.Score score }))
    | none => .ok (some (m.set repoName { Repository := "", Score := score }))

/-- The body of the `for record := range recordsChan` loop of `worker`
(main.go, lines 132-164) for one record: `continue` leaves the map as it is. -/
def workerBody (repos : Repos) (record : Record) : Except Panic Repos :=
  match index record 2 with
  | .error p => .error p
  | .ok repoName =>
    match index record 3 with
    | .error p => .error p
    | .ok value3 =>
      match processField value3 with
      | (_, false) => .ok repos
      | (files, true) =>
        match index record 4 with
        | .error p => .error p
        | .ok value4 =>
          match processField value4 with
          | (_, false) => .ok repos
          | (additions, true) =>
            match index record 5 with
            | .error p => .error p
            | .ok value5 =>
              match processField value5 with
              | (_, false) => .ok repos
              | (deletions, true) =>
                merge repos repoName (calculateActivityScore files additions deletions)

/-- What the pipeline does with one record read from the source: the producer's
check (main.go, lines 113-116), then, for a record that is sent on the channel,
the worker's loop body. -/
def processRecord (repos : Repos) (record : Record) : Except Panic Repos :=
  if missingRequiredFields record then .ok repos else workerBody repos record

/-- The function `worker` (main.go, lines 129-166): the loop
`for record := range recordsChan` over the records it receives, in order. -/
def worker : Repos → List Record → Except Panic Repos
  | repos, [] => .ok repos
  | repos, record :: rest =>
    match workerBody repos record with
    | .error p => .error p
    | .ok repos1 => worker repos1 rest

/-! ## `readCSVConcurrently` (main.go, lines 82-126) -/

/-- The error of a `reader.Read()`: `io.EOF` or any other error. -/
inductive ReadError where
  | EOF
  | other (msg : String)
  deriving DecidableEq, Repr

/-- The `*csv.Reader` as the function uses it: the results of its successive
`Read` calls up to the end of the input, each a record or an error other than
`io.EOF`. Once the list is used up, `Read` returns `io.EOF`. -/
abbrev Reader := List (Except String Record)

/-- One call `reader.Read()`: the result and the reader after it. -/
def Reader.Read : Reader → Except ReadError Record × Reader
  | [] => (.error ReadError.EOF, [])
  | .error msg :: rest => (.error (ReadError.other msg), rest)
  | .ok record :: rest => (.ok record, rest)

/-- The errors `readCSVConcurrently` builds with `fmt.Errorf`, each wrapping
the error of the failed read. -/
inductive Error where
  | readingHeader (cause : ReadError)
  | readingCSV (cause : ReadError)
  deriving DecidableEq, Repr

/-- The loop `for { record, err := reader.Read() ... }` of
`readCSVConcurrently` (main.go, lines 102-119); each case is one result of
`reader.Read()`. It gives the records sent on `recordsChan`, in order, up to
the end of the input or to the read that fails, and the error built for a read
that fails (`none` when the input ends). -/
def readLoop : Reader → List Record × Option Error
  | [] => ([], none)
  | .error msg :: _ => ([], some (Error.readingCSV (ReadError.other msg)))
  | .ok record :: rest =>
    if missingRequiredFields record then readLoop rest
    else (record :: (readLoop rest).1, (readLoop rest).2)

/-- The function `readCSVConcurrently`: the returned pair `(map, error)`, or
the panic that ends the program. The workers are started before the first read
and merge, in place in the map the caller passed, every record that is sent,
on a failed read as well: there the function returns `nil` and the error
without `wg.Wait()`, and the records already sent are still merged, so that a
panic of a worker ends the program on that path too. The four workers, which
take the records from the one channel and merge under the one mutex, are
modelled as a single `worker` that receives every record sent, in the order
sent, and whose outcome is known when the function returns. When the header
cannot be read nothing is sent. -/
def readCSVConcurrently (reader : Reader) (repos : Repos) : Except Panic (Repos × Option Error) :=
  match reader.Read with
  | (.error err, _) => .ok (none, some (Error.readingHeader err))
  | (.ok _, reader1) =>
    match worker repos (readLoop reader1).1 with
    | .error p => .error p
    | .ok repos1 =>
      match (readLoop reader1).2 with
      | some e => .ok (none, some e)
      | none => .ok (repos1, none)

/-! ## `rankRepositories` (main.go, lines 169-191) -/

/-- The anonymous struct `struct { Name string; Score int }` of the ranked slice. -/
structure Entry where
  Name : String
  Score : Int
  deriving DecidableEq, Repr

/-- The entries `for name, repo := range repos` visits; none for a nil map. -/
def Repos.range : Repos → List (String × RankedRepo)
  | none => []
  | some m => m

/-- The `less` closure handed to `sort.Slice` (main.go, lines 186-188), on the
two elements it compares. -/
def scoreGreater (a b : Entry) : Bool := decide (a.Score > b.Score)

/-- The function `rankRepositories`. The library routine `sort.Slice` is the
parameter `sortSlice`: it takes the `less` function and the slice and gives the
slice after sorting. -/
def rankRepositories (sortSlice : (Entry → Entry → Bool) → List Entry → List Entry)
    (repos : Repos) : List Entry × Option Error :=
  let rankedRepos := repos.range.map (fun p => ({ Name := p.1, Score := p.2.Score } : Entry))
  (sortSlice scoreGreater rankedRepos, none)

/-- What Go asks of a `less` function: an irreflexive transitive ordering in
which being unordered is transitive as well. -/
def TransitiveOrdering {α : Type} (less : α → α → Bool) : Prop :=
  (∀ a, less a a = false) ∧
  (∀ a b c, less a b = true → less b c = true → less a c = true) ∧
  (∀ a b c, less a b = false → less b c = false → less a c = false)

/-- The documented contract of `sort.Slice`: the slice is rearranged, and for a
`less` that is a transitive ordering no element is `less` than one before it.
Nothing is promised about the order of elements that are not `less` than each
other (the sort is not stable). -/
def SortSliceContract (sortSlice : (Entry → Entry → Bool) → List Entry → List Entry) : Prop :=
  ∀ less xs, (sortSlice less xs).Perm xs ∧
    (TransitiveOrdering less → (sortSlice less xs).Pairwise (fun a b => less b a = false))

/-- The inner loop of Go's `insertionSortLessFunc`: the element `x` moves left
past every element it is `less` than. The sorted part is held last element
first. -/
def insertLeft {α : Type} (less : α → α → Bool) (x : α) : List α → List α
  | [] => [x]
  | p :: ps => if less x p then p :: insertLeft less x ps else x :: p :: ps

/-- The outer loop of Go's `insertionSortLessFunc`: `sorted` is the part
already in order, last element first. -/
def insertionSortLoop {α : Type} (less : α → α → Bool) : List α → List α → List α
  | sorted, [] => sorted.reverse
  | sorted, x :: xs => insertionSortLoop less (insertLeft less x sorted) xs

/-- Insertion sort as in Go's `sort` package, the routine `sort.Slice` runs on
slices of at most 12 elements: one instance of `sort.Slice`. -/
def insertionSortLessFunc (less : Entry → Entry → Bool) (xs : List Entry) : List Entry :=
  insertionSortLoop less [] xs

/-! ## The report loop of `main` (main.go, lines 53-59) -/

/-- The text of `fmt.Printf("%d. %s - Score: %d\n", i+1, repo.Name, repo.Score)`. -/
def reportLine (i : Nat) (repo : Entry) : String :=
  toString (i + 1) ++ ". " ++ repo.Name ++ " - Score: " ++ toString repo.Score ++ "\n"

/-- The loop `for i, repo := range ranked` of `main` from index `i` on: the
texts it prints, in order. The constant `TopR` is not among the sources and is
a parameter. -/
def reportLoop (TopR : Int) : Nat → List Entry → List String
  | _, [] => []
  | i, repo :: rest =>
    if (i : Int) ≥ TopR then [] else reportLine i repo :: reportLoop TopR (i + 1) rest

/-- The output of the report loop of `main` on the ranked list. -/
def report (TopR : Int) (ranked : List Entry) : List String := reportLoop TopR 0 ranked

/-! ## Reference definitions, in the words of the specification -/

/-- A field that parses with `strconv.Atoi` to an integer `>= 0`. -/
def parsesNonNegative (field : String) : Bool :=
  match Atoi field with
  | some n => decide (0 ≤ n)
  | none => false

/-- A valid record: at least 6 fields, fields 2 to 5 non-empty, and fields 3, 4
and 5 each parse with `strconv.Atoi` to an integer `>= 0`. -/
def validRecord (record : Record) : Bool :=
  decide (6 ≤ record.length) &&
    (record.getD 2 "" != "" && record.getD 3 "" != "" &&
      record.getD 4 "" != "" && record.getD 5 "" != "") &&
    (parsesNonNegative (record.getD 3 "") && parsesNonNegative (record.getD 4 "") &&
      parsesNonNegative (record.getD 5 ""))

/-- The repository field (field 2) of a record. -/
def repositoryOf (record : Record) : String := record.getD 2 ""

/-- The score of a record: `calculateActivityScore(files, additions, deletions)`
on its fields 3, 4 and 5. -/
def recordScore (record : Record) : Int :=
  calculateActivityScore ((Atoi (record.getD 3 "")).getD 0) ((Atoi (record.getD 4 "")).getD 0)
    ((Atoi (record.getD 5 "")).getD 0)

/-- The scores of the valid records whose repository field is `R`, in order. -/
def scoresOf (records : List Record) (R : String) : List Int :=
  (records.filter (fun r => validRecord r && decide (repositoryOf r = R))).map recordScore

/-- The reference aggregate with the sum taken over the integers: `R` is a key
exactly when it has a valid record, and its score is the sum of the scores of
its valid records. -/
def referenceAggregate (records : List Record) (R : String) : Option Int :=
  if scoresOf records R = [] then none else some (scoresOf records R).sum

/-- The reference aggregate with the sum taken in Go's `int`: the sum of the
scores reduced into the 64-bit range. -/
def referenceAggregate64 (records : List Record) (R : String) : Option Int :=
  if scoresOf records R = [] then none else some (wrap64 (scoresOf records R).sum)

/-- A text that is not a base-10 integer, or is a negative one. -/
def NotACount (field : String) : Prop := ∀ n : Int, decimalInt field = some n → n < 0

/-- A record the validator rejects: fewer than 6 fields, or an empty string at
field 2, 3, 4 or 5, or a files, additions or deletions field that is not a
base-10 integer or is negative. -/
def Rejected (record : Record) : Prop :=
  record.length < 6 ∨
    (record.get? 2 = some "" ∨ record.get? 3 = some "" ∨
      record.get? 4 = some "" ∨ record.get? 5 = some "") ∨
    (NotACount (record.getD 3 "") ∨ NotACount (record.getD 4 "") ∨ NotACount (record.getD 5 ""))

/-- The order "score descending, then repository name ascending" between an
entry and the one after it. -/
def ScoreThenName (x y : Entry) : Prop :=
  x.Score > y.Score ∨ (x.Score = y.Score ∧ x.Name < y.Name)

/-- The order "score descending" between an entry and the one after it. -/
def ScoreDescending (x y : Entry) : Prop :=
  x.Score > y.Score ∨ x.Score = y.Score

instance : DecidableRel ScoreThenName := fun x y =>
  inferInstanceAs (Decidable (x.Score > y.Score ∨ (x.Score = y.Score ∧ x.Name < y.Name)))

instance : DecidableRel ScoreDescending := fun x y =>
  inferInstanceAs (Decidable (x.Score > y.Score ∨ x.Score = y.Score))

/-! ## Auxiliary definitions for the proofs -/

/-- The value the critical section of `worker` writes for a key, from the
entry found there (if any) and the score. -/
def mergedValue (existing : Option RankedRepo) (score : Int) : RankedRepo :=
  match existing with
  | some e => { e with Score := goAdd e.Score score }
  | none => { Repository := "", Score := score }

/-- One record's effect on a non-nil map. -/
def stepMap (m : GoMap) (record : Record) : GoMap :=
  if validRecord record then
    m.set (repositoryOf record) (mergedValue (m.get (repositoryOf record)) (recordScore record))
  else m

/-- One record's effect on the entry of the key `k`. -/
def stepValue (k : String) (old : Option RankedRepo) (record : Record) : Option RankedRepo :=
  if validRecord record && decide (repositoryOf record = k) then
    some (mergedValue old (recordScore record))
  else old

/-- What `readCSVConcurrently` does once the read loop is over, from the
records sent and the error of the loop. -/
def finishRun (repos : Repos) (sent : List Record) (err : Option Error) :
    Except Panic (Repos × Option Error) :=
  match worker repos sent with
  | .error p => .error p
  | .ok repos1 =>
    match err with
    | some e => .ok (none, some e)
    | none => .ok (repos1, none)

/-- The slice `rankRepositories` builds before sorting. -/
def unsortedEntries (repos : Repos) : List Entry :=
  repos.range.map (fun p => ({ Name := p.1, Score := p.2.Score } : Entry))

/-! ## Go's `int`: lemmas -/

theorem wrap64_isInt64 (x : Int) : IsInt64 (wrap64 x) := by
  unfold IsInt64 wrap64
  omega

theorem wrap64_eq_self {x : Int} (h : IsInt64 x) : wrap64 x = x := by
  unfold IsInt64 at h
  unfold wrap64
  omega

theorem wrap64_eq_self_iff (x : Int) : wrap64 x = x ↔ IsInt64 x := by
  constructor
  · intro h
    rw [← h]
    exact wrap64_isInt64 x
  · exact wrap64_eq_self

theorem wrap64_add_wrap64_left (a b : Int) : wrap64 (wrap64 a + b) = wrap64 (a + b) := by
  unfold wrap64
  omega

theorem wrap64_congruent (x : Int) : (wrap64 x - x) % 18446744073709551616 = 0 := by
  unfold wrap64
  omega

theorem goAdd_right_comm (s a b : Int) : goAdd (goAdd s a) b = goAdd (goAdd s b) a := by
  unfold goAdd
  rw [wrap64_add_wrap64_left, wrap64_add_wrap64_left]
  congr 1
  omega

theorem calculateActivityScore_eq (files additions deletions : Int) :
    calculateActivityScore files additions deletions = wrap64 (files * additions + deletions) := by
  unfold calculateActivityScore goAdd goMul
  exact wrap64_add_wrap64_left _ _

theorem calculateActivityScore_isInt64 (files additions deletions : Int) :
    IsInt64 (calculateActivityScore files additions deletions) := by
  rw [calculateActivityScore_eq]
  exact wrap64_isInt64 _

/-! ## Validation and merging: lemmas -/

theorem processField_snd (value : String) : (processField value).2 = parsesNonNegative value := by
  unfold processField parsesNonNegative
  cases h : Atoi value with
  | none => rfl
  | some n =>
    by_cases hn : n < 0
    · simp [hn, Int.not_le.mpr hn]
    · simp [hn, Int.not_lt.mp hn]

theorem processField_fst (value : String) (h : (processField value).2 = true) :
    (processField value).1 = (Atoi value).getD 0 := by
  unfold processField at h ⊢
  cases hA : Atoi value with
  | none => simp [hA] at h
  | some n =>
    by_cases hn : n < 0
    · simp [hA, hn] at h
    · simp [hn]

theorem workerBody_of_six (repos : Repos) (a b c d e f : String) (rest : List String) :
    workerBody repos (a :: b :: c :: d :: e :: f :: rest) =
      if parsesNonNegative d && parsesNonNegative e && parsesNonNegative f then
        merge repos c (calculateActivityScore ((Atoi d).getD 0) ((Atoi e).getD 0) ((Atoi f).getD 0))
      else .ok repos := by
  have hd := processField_snd d
  have he := processField_snd e
  have hf := processField_snd f
  have hd1 := processField_fst d
  have he1 := processField_fst e
  have hf1 := processField_fst f
  simp only [workerBody, index, List.get?]
  rcases hpd : processField d with ⟨vd, bd⟩
  rcases hpe : processField e with ⟨ve, be⟩
  rcases hpf : processField f with ⟨vf, bf⟩
  rw [hpd] at hd hd1
  rw [hpe] at he he1
  rw [hpf] at hf hf1
  simp only at hd he hf hd1 he1 hf1
  rw [← hd, ← he, ← hf]
  cases bd with
  | false => simp
  | true =>
    cases be with
    | false => simp
    | true =>
      cases bf with
      | false => simp
      | true => simp [← hd1 rfl, ← he1 rfl, ← hf1 rfl]

theorem validRecord_of_missing {record : Record} (h : missingRequiredFields record = true) :
    validRecord record = false := by
  unfold missingRequiredFields at h
  unfold validRecord
  simp only [Bool.or_eq_true, decide_eq_true_eq, beq_iff_eq] at h
  simp only [Bool.and_eq_false_iff, decide_eq_false_iff_not, bne_eq_false_iff_eq]
  rcases h with (((h | h) | h) | h) | h
  · left; left; omega
  · left; right; left; left; left; exact h
  · left; right; left; left; right; exact h
  · left; right; left; right; exact h
  · left; right; right; exact h

theorem processRecord_eq (repos : Repos) (record : Record) :
    processRecord repos record =
      if validRecord record then merge repos (repositoryOf record) (recordScore record)
      else .ok repos := by
  match record with
  | [] => rfl
  | [_] => rfl
  | [_, _] => rfl
  | [_, _, _] => rfl
  | [_, _, _, _] => rfl
  | [_, _, _, _, _] => rfl
  | a :: b :: c :: d :: e :: f :: rest =>
    unfold processRecord
    by_cases hm : missingRequiredFields (a :: b :: c :: d :: e :: f :: rest) = true
    · simp [hm, validRecord_of_missing hm]
    · rw [if_neg hm, workerBody_of_six]
      simp [missingRequiredFields] at hm
      simp [validRecord, repositoryOf, recordScore, hm]

theorem GoMap.get_set (m : GoMap) (k : String) (v : RankedRepo) (k' : String) :
    (m.set k v).get k' = if k' = k then some v else m.get k' := by
  induction m with
  | nil =>
    by_cases h : k' = k
    · simp [GoMap.set, GoMap.get, h]
    · have h' : ¬ k = k' := fun e => h e.symm
      simp [GoMap.set, GoMap.get, h, h']
  | cons p rest ih =>
    obtain ⟨k0, v0⟩ := p
    by_cases h0 : k0 = k
    · subst h0
      by_cases h : k' = k0
      · simp [GoMap.set, GoMap.get, h]
      · have h' : ¬ k0 = k' := fun e => h e.symm
        simp [GoMap.set, GoMap.get, h, h']
    · by_cases h : k0 = k'
      · subst h
        simp [GoMap.set, GoMap.get, h0]
      · simp [GoMap.set, GoMap.get, h0, h, ih]

theorem merge_some (m : GoMap) (repoName : String) (score : Int) :
    merge (some m) repoName score =
      .ok (some (m.set repoName (mergedValue (m.get repoName) score))) := by
  unfold merge mergedValue
  cases h : m.get repoName <;> simp [h]

theorem parsesNonNegative_of_notACount {field : String} (h : NotACount field) :
    parsesNonNegative field = false := by
  unfold parsesNonNegative Atoi
  cases hd : decimalInt field with
  | none => rfl
  | some n =>
    have hn : n < 0 := h n hd
    by_cases hr : IsInt64 n
    · simp [hr, Int.not_le.mpr hn]
    · simp [hr]

theorem validRecord_of_rejected {record : Record} (h : Rejected record) :
    validRecord record = false := by
  unfold validRecord
  rcases h with h | h | h
  · have : ¬ 6 ≤ record.length := by omega
    simp [this]
  · have key : ∀ i, record.get? i = some "" → record[i]?.getD "" = "" := by
      intro i hi
      rw [← List.get?_eq_getElem?, hi]
      rfl
    rcases h with h | h | h | h <;> simp [key _ h]
  · rcases h with h | h | h
    all_goals
      have hp := parsesNonNegative_of_notACount h
      simp only [List.getD_eq_getElem?_getD] at hp
      simp [hp]

theorem processRecord_some (m : GoMap) (record : Record) :
    processRecord (some m) record = .ok (some (stepMap m record)) := by
  rw [processRecord_eq]
  unfold stepMap
  by_cases h : validRecord record = true
  · simp [h, merge_some]
  · simp [h]

theorem stepMap_of_missing (m : GoMap) {record : Record}
    (h : missingRequiredFields record = true) : stepMap m record = m := by
  unfold stepMap
  rw [validRecord_of_missing h]
  rfl

theorem workerBody_some (m : GoMap) {record : Record}
    (h : missingRequiredFields record = false) :
    workerBody (some m) record = .ok (some (stepMap m record)) := by
  have hp := processRecord_some m record
  unfold processRecord at hp
  rw [h] at hp
  exact hp

theorem worker_some (m : GoMap) (sent : List Record)
    (h : ∀ r ∈ sent, missingRequiredFields r = false) :
    worker (some m) sent = .ok (some (sent.foldl stepMap m)) := by
  induction sent generalizing m with
  | nil => rfl
  | cons r rest ih =>
    rw [worker, workerBody_some m (h r (List.mem_cons_self _ _)), List.foldl_cons]
    exact ih _ (fun x hx => h x (List.mem_cons_of_mem _ hx))

theorem get_stepMap (m : GoMap) (record : Record) (k : String) :
    (stepMap m record).get k = stepValue k (m.get k) record := by
  unfold stepMap stepValue
  by_cases h : validRecord record = true
  · by_cases hk : repositoryOf record = k
    · subst hk
      simp [h, GoMap.get_set]
    · have hk' : ¬ k = repositoryOf record := fun e => hk e.symm
      simp [h, hk, hk', GoMap.get_set]
  · simp [h]

theorem get_foldl_stepMap (records : List Record) (m : GoMap) (k : String) :
    (records.foldl stepMap m).get k = records.foldl (stepValue k) (m.get k) := by
  induction records generalizing m with
  | nil => rfl
  | cons r rest ih =>
    simp only [List.foldl_cons]
    rw [ih, get_stepMap]

theorem mergedValue_right_comm (old : Option RankedRepo) (a b : Int) :
    mergedValue (some (mergedValue old a)) b = mergedValue (some (mergedValue old b)) a := by
  cases old with
  | none =>
    simp only [mergedValue, goAdd]
    rw [Int.add_comm]
  | some e =>
    simp only [mergedValue]
    rw [goAdd_right_comm]

theorem stepValue_right_comm (k : String) (old : Option RankedRepo) (x y : Record) :
    stepValue k (stepValue k old x) y = stepValue k (stepValue k old y) x := by
  unfold stepValue
  by_cases hx : (validRecord x && decide (repositoryOf x = k)) = true
  · by_cases hy : (validRecord y && decide (repositoryOf y = k)) = true
    · simp only [hx, hy, if_true]
      rw [mergedValue_right_comm]
    · simp only [hx, hy, if_true]
      simp
  · by_cases hy : (validRecord y && decide (repositoryOf y = k)) = true
    · simp only [hx, hy, if_true]
      simp
    · simp only [hx, hy]
      simp

theorem foldl_stepValue_perm {l₁ l₂ : List Record} (h : l₁.Perm l₂) (k : String)
    (init : Option RankedRepo) :
    l₁.foldl (stepValue k) init = l₂.foldl (stepValue k) init :=
  h.foldl_eq' (fun x _ y _ z => stepValue_right_comm k z x y) init

theorem processRecord_none (record : Record) :
    processRecord none record =
      if validRecord record then .error Panic.nilMapAssignment else .ok none := by
  rw [processRecord_eq]
  rfl

theorem workerBody_none {record : Record} (h : missingRequiredFields record = false) :
    workerBody none record =
      if validRecord record then .error Panic.nilMapAssignment else .ok none := by
  have hp := processRecord_none record
  unfold processRecord at hp
  rw [h] at hp
  exact hp

theorem worker_none (sent : List Record) (h : ∀ r ∈ sent, missingRequiredFields r = false) :
    worker none sent =
      if sent.any validRecord then .error Panic.nilMapAssignment else .ok none := by
  induction sent with
  | nil => rfl
  | cons r rest ih =>
    rw [worker, workerBody_none (h r (List.mem_cons_self _ _)), List.any_cons]
    by_cases hv : validRecord r = true
    · simp [hv]
    · simp [hv, ih (fun x hx => h x (List.mem_cons_of_mem _ hx))]

theorem any_validRecord_perm {l₁ l₂ : List Record} (h : l₁.Perm l₂) :
    l₁.any validRecord = l₂.any validRecord := by
  rw [Bool.eq_iff_iff]
  simp only [List.any_eq_true]
  constructor
  · rintro ⟨x, hx, hv⟩
    exact ⟨x, h.mem_iff.mp hx, hv⟩
  · rintro ⟨x, hx, hv⟩
    exact ⟨x, h.mem_iff.mpr hx, hv⟩

theorem GoMap.keys_set (m : GoMap) (k : String) (v : RankedRepo) :
    (m.set k v).map Prod.fst =
      if k ∈ m.map Prod.fst then m.map Prod.fst else m.map Prod.fst ++ [k] := by
  induction m with
  | nil => simp [GoMap.set]
  | cons p rest ih =>
    obtain ⟨k0, v0⟩ := p
    by_cases h0 : k0 = k
    · subst h0
      simp [GoMap.set]
    · have h0' : ¬ k = k0 := fun e => h0 e.symm
      simp only [GoMap.set, h0, if_false, List.map_cons, ih, List.mem_cons, h0', false_or]
      by_cases hk : k ∈ rest.map Prod.fst
      · simp only [hk, if_true]
      · simp only [hk, if_false, List.cons_append]

theorem GoMap.WF_set {m : GoMap} (h : m.WF) (k : String) (v : RankedRepo) : (m.set k v).WF := by
  unfold GoMap.WF at h ⊢
  rw [GoMap.keys_set]
  by_cases hk : k ∈ m.map Prod.fst
  · simp only [hk, if_true]
    exact h
  · simp only [hk, if_false]
    rw [List.nodup_append]
    refine ⟨h, List.nodup_singleton k, ?_⟩
    intro a ha hb
    rw [List.mem_singleton] at hb
    subst hb
    exact hk ha

theorem WF_stepMap {m : GoMap} (h : m.WF) (record : Record) : (stepMap m record).WF := by
  unfold stepMap
  by_cases hv : validRecord record = true
  · simp only [hv, if_true]
    exact GoMap.WF_set h _ _
  · simp only [hv]
    exact h

theorem WF_foldl_stepMap (records : List Record) {m : GoMap} (h : m.WF) :
    (records.foldl stepMap m).WF := by
  induction records generalizing m with
  | nil => exact h
  | cons r rest ih => exact ih (WF_stepMap h r)

theorem foldl_stepValue_eq (k : String) (records : List Record) (init : Option RankedRepo) :
    records.foldl (stepValue k) init =
      (scoresOf records k).foldl (fun old s => some (mergedValue old s)) init := by
  induction records generalizing init with
  | nil => rfl
  | cons r rest ih =>
    simp only [List.foldl_cons, ih, scoresOf, List.filter_cons, stepValue]
    by_cases h : (validRecord r && decide (repositoryOf r = k)) = true
    · simp only [h, if_true, List.map_cons, List.foldl_cons]
    · simp only [h]
      rfl

theorem mergedValue_some (e : RankedRepo) (s : Int) :
    mergedValue (some e) s = { e with Score := goAdd e.Score s } := rfl

theorem mergedValue_none (s : Int) : mergedValue none s = { Repository := "", Score := s } := rfl

theorem foldl_mergedValue_some (scores : List Int) (e : RankedRepo) :
    scores.foldl (fun old s => some (mergedValue old s)) (some e) =
      some { e with Score := if scores = [] then e.Score else wrap64 (e.Score + scores.sum) } := by
  induction scores generalizing e with
  | nil => simp
  | cons s rest ih =>
    rw [List.foldl_cons, mergedValue_some, ih, List.sum_cons]
    by_cases hr : rest = []
    · subst hr
      simp [goAdd]
    · simp only [hr, if_false, goAdd, wrap64_add_wrap64_left]
      simp [Int.add_assoc]

theorem recordScore_isInt64 (record : Record) : IsInt64 (recordScore record) :=
  calculateActivityScore_isInt64 _ _ _

theorem scoresOf_isInt64 (records : List Record) (k : String) :
    ∀ s ∈ scoresOf records k, IsInt64 s := by
  intro s hs
  unfold scoresOf at hs
  rw [List.mem_map] at hs
  obtain ⟨r, _, rfl⟩ := hs
  exact recordScore_isInt64 r

theorem foldl_mergedValue_none (scores : List Int) (h : ∀ s ∈ scores, IsInt64 s) :
    (scores.foldl (fun old s => some (mergedValue old s)) none).map RankedRepo.Score =
      if scores = [] then none else some (wrap64 scores.sum) := by
  cases scores with
  | nil => rfl
  | cons s rest =>
    rw [List.foldl_cons, mergedValue_none, foldl_mergedValue_some, List.sum_cons]
    by_cases hr : rest = []
    · subst hr
      simp [wrap64_eq_self (h s (List.mem_cons_self _ _))]
    · simp [hr]

theorem readLoop_records (records : List Record) :
    readLoop (records.map Except.ok)
      = (records.filter (fun r => !missingRequiredFields r), none) := by
  induction records with
  | nil => rfl
  | cons r rest ih =>
    rw [List.map_cons, readLoop, ih, List.filter_cons]
    cases missingRequiredFields r <;> rfl

theorem readLoop_failure (before : List Record) (msg : String) (rest : Reader) :
    readLoop (before.map Except.ok ++ .error msg :: rest)
      = (before.filter (fun r => !missingRequiredFields r),
          some (Error.readingCSV (ReadError.other msg))) := by
  induction before with
  | nil => rfl
  | cons r before ih =>
    rw [List.map_cons, List.cons_append, readLoop, ih, List.filter_cons]
    cases missingRequiredFields r <;> rfl

theorem foldl_stepMap_filter (records : List Record) (m : GoMap) :
    (records.filter (fun r => !missingRequiredFields r)).foldl stepMap m
      = records.foldl stepMap m := by
  induction records generalizing m with
  | nil => rfl
  | cons r rest ih =>
    rw [List.filter_cons]
    cases h : missingRequiredFields r with
    | false =>
      simp only [Bool.not_false, if_true, List.foldl_cons]
      exact ih _
    | true =>
      simp only [Bool.not_true, List.foldl_cons, stepMap_of_missing m h]
      exact ih m

theorem missing_of_mem_filter {records : List Record} :
    ∀ r ∈ records.filter (fun r => !missingRequiredFields r), missingRequiredFields r = false := by
  intro r hr
  have := (List.mem_filter.mp hr).2
  simpa using this

theorem get_nil (k : String) : GoMap.get [] k = none := rfl

/-! ## `sort.Slice`: the insertion sort meets the contract -/

theorem insertLeft_perm {α : Type} (less : α → α → Bool) (x : α) (sorted : List α) :
    (insertLeft less x sorted).Perm (x :: sorted) := by
  induction sorted with
  | nil => exact List.Perm.refl _
  | cons p ps ih =>
    unfold insertLeft
    by_cases h : less x p = true
    · rw [if_pos h]
      exact ((List.Perm.cons p ih).trans (List.Perm.swap x p ps))
    · rw [if_neg h]

theorem insertionSortLoop_perm {α : Type} (less : α → α → Bool) (sorted xs : List α) :
    (insertionSortLoop less sorted xs).Perm (sorted.reverse ++ xs) := by
  induction xs generalizing sorted with
  | nil =>
    unfold insertionSortLoop
    rw [List.append_nil]
  | cons x xs ih =>
    unfold insertionSortLoop
    refine (ih (insertLeft less x sorted)).trans ?_
    have h1 : (insertLeft less x sorted).reverse.Perm (sorted.reverse ++ [x]) := by
      refine (List.reverse_perm _).trans ?_
      refine (insertLeft_perm less x sorted).trans ?_
      refine (List.Perm.cons x (List.reverse_perm sorted).symm).trans ?_
      exact (List.perm_append_singleton x sorted.reverse).symm
    have h2 := List.Perm.append_right xs h1
    simpa [List.append_assoc] using h2

theorem insertLeft_pairwise {α : Type} {less : α → α → Bool} (ho : TransitiveOrdering less)
    (x : α) {sorted : List α} (h : sorted.Pairwise (fun a b => less a b = false)) :
    (insertLeft less x sorted).Pairwise (fun a b => less a b = false) := by
  obtain ⟨hirr, htrans, hneg⟩ := ho
  induction sorted with
  | nil => exact List.pairwise_singleton _ _
  | cons p ps ih =>
    rw [List.pairwise_cons] at h
    unfold insertLeft
    by_cases hx : less x p = true
    · rw [if_pos hx, List.pairwise_cons]
      refine ⟨?_, ih h.2⟩
      intro y hy
      rcases List.mem_cons.mp ((insertLeft_perm less x ps).mem_iff.mp hy) with hy | hy
      · rw [hy]
        cases hpx : less p x with
        | false => rfl
        | true =>
          have := htrans x p x hx hpx
          rw [hirr x] at this
          exact absurd this (by decide)
      · exact h.1 y hy
    · rw [if_neg hx, List.pairwise_cons]
      have hx' : less x p = false := by
        cases hxp : less x p with
        | false => rfl
        | true => exact absurd hxp hx
      refine ⟨?_, List.pairwise_cons.mpr h⟩
      intro y hy
      rcases List.mem_cons.mp hy with hy | hy
      · rw [hy]
        exact hx'
      · exact hneg x p y hx' (h.1 y hy)

theorem insertionSortLoop_pairwise {α : Type} {less : α → α → Bool} (ho : TransitiveOrdering less)
    (sorted xs : List α) (h : sorted.Pairwise (fun a b => less a b = false)) :
    (insertionSortLoop less sorted xs).Pairwise (fun a b => less b a = false) := by
  induction xs generalizing sorted with
  | nil =>
    unfold insertionSortLoop
    rw [List.pairwise_reverse]
    exact h
  | cons x xs ih =>
    unfold insertionSortLoop
    exact ih _ (insertLeft_pairwise ho x h)

theorem insertionSortLessFunc_contract : SortSliceContract insertionSortLessFunc := by
  intro less xs
  constructor
  · have := insertionSortLoop_perm less [] xs
    simpa [insertionSortLessFunc] using this
  · intro ho
    exact insertionSortLoop_pairwise ho [] xs List.Pairwise.nil

theorem scoreGreater_transitiveOrdering : TransitiveOrdering scoreGreater := by
  refine ⟨?_, ?_, ?_⟩
  · intro a
    simp [scoreGreater]
  · intro a b c
    simp only [scoreGreater, decide_eq_true_eq]
    omega
  · intro a b c
    simp only [scoreGreater, decide_eq_false_iff_not]
    omega

theorem rankRepositories_fst (sortSlice : (Entry → Entry → Bool) → List Entry → List Entry)
    (repos : Repos) :
    (rankRepositories sortSlice repos).1 = sortSlice scoreGreater (unsortedEntries repos) := rfl

theorem rankRepositories_perm_unsorted {sortSlice : (Entry → Entry → Bool) → List Entry → List Entry}
    (hs : SortSliceContract sortSlice) (repos : Repos) :
    (rankRepositories sortSlice repos).1.Perm (unsortedEntries repos) :=
  (hs scoreGreater (unsortedEntries repos)).1

theorem rankRepositories_pairwise {sortSlice : (Entry → Entry → Bool) → List Entry → List Entry}
    (hs : SortSliceContract sortSlice) (repos : Repos) :
    (rankRepositories sortSlice repos).1.Pairwise (fun x y => x.Score ≥ y.Score) := by
  have h := (hs scoreGreater (unsortedEntries repos)).2 scoreGreater_transitiveOrdering
  rw [rankRepositories_fst]
  refine h.imp ?_
  intro a b hab
  simp only [scoreGreater, decide_eq_false_iff_not] at hab
  omega

/-! # The claims -/

/-! ## The score function -/

/-- C7, as stated, fails: for the non-negative `int` values `files = 1`,
`additions = 9223372036854775807`, `deletions = 1` the function returns
`-9223372036854775808`, not the integer `files*additions + deletions`. -/
theorem calculateActivityScore_overflows :
    IsInt64 1 ∧ IsInt64 9223372036854775807 ∧ (0 : Int) ≤ 1 ∧ (0 : Int) ≤ 9223372036854775807 ∧
      calculateActivityScore 1 9223372036854775807 1 = -9223372036854775808 ∧
      calculateActivityScore 1 9223372036854775807 1 ≠ 1 * 9223372036854775807 + 1 := by
  decide

/-- C7, amended: for non-negative `int` values, `calculateActivityScore` returns
`files*additions + deletions` reduced into the 64-bit range: a value of `int`
that differs from the exact integer by a multiple of `2^64`, and that is the
exact integer precisely when `files*additions + deletions <= 2^63 - 1`. -/
theorem calculateActivityScore_wraps (files additions deletions : Int)
    (hf : IsInt64 files ∧ 0 ≤ files) (ha : IsInt64 additions ∧ 0 ≤ additions)
    (hd : IsInt64 deletions ∧ 0 ≤ deletions) :
    calculateActivityScore files additions deletions = wrap64 (files * additions + deletions) ∧
      IsInt64 (calculateActivityScore files additions deletions) ∧
      (calculateActivityScore files additions deletions - (files * additions + deletions))
          % 18446744073709551616 = 0 ∧
      (calculateActivityScore files additions deletions = files * additions + deletions ↔
        files * additions + deletions ≤ 9223372036854775807) := by
  have hnonneg : 0 ≤ files * additions + deletions :=
    Int.add_nonneg (Int.mul_nonneg hf.2 ha.2) hd.2
  refine ⟨calculateActivityScore_eq _ _ _, calculateActivityScore_isInt64 _ _ _, ?_, ?_⟩
  · rw [calculateActivityScore_eq]
    exact wrap64_congruent _
  · rw [calculateActivityScore_eq, wrap64_eq_self_iff]
    unfold IsInt64
    constructor
    · intro h
      exact h.2
    · intro h
      exact ⟨by omega, h⟩

/-- Witness for C7, amended: a row of the test table, `2*20 + 10`, which fits
and is therefore returned exactly. -/
theorem calculateActivityScore_wraps_witness :
    (IsInt64 2 ∧ (0 : Int) ≤ 2) ∧ (IsInt64 20 ∧ (0 : Int) ≤ 20) ∧ (IsInt64 10 ∧ (0 : Int) ≤ 10) ∧
      calculateActivityScore 2 20 10 = (2 : Int) * 20 + 10 :=
  ⟨by decide, by decide, by decide,
    (calculateActivityScore_wraps 2 20 10 (by decide) (by decide) (by decide)).2.2.2.2 (by decide)⟩

/-! ## Aggregation -/

theorem readCSVConcurrently_cons (header : Record) (rest : Reader) (repos : Repos) :
    readCSVConcurrently (.ok header :: rest) repos
      = finishRun repos (readLoop rest).1 (readLoop rest).2 := by
  unfold readCSVConcurrently finishRun
  simp only [Reader.Read]

theorem readCSVConcurrently_records (header : Record) (records : List Record) (m : GoMap) :
    readCSVConcurrently (.ok header :: records.map Except.ok) (some m)
      = .ok (some (records.foldl stepMap m), none) := by
  rw [readCSVConcurrently_cons, readLoop_records]
  simp only [finishRun, worker_some m _ missing_of_mem_filter, foldl_stepMap_filter]

theorem workerBody_rejected (repos : Repos) {record : Record}
    (hm : missingRequiredFields record = false) (hv : validRecord record = false) :
    workerBody repos record = .ok repos := by
  have hp := processRecord_eq repos record
  unfold processRecord at hp
  rw [hm, hv] at hp
  exact hp

theorem finishRun_cons (repos : Repos) (record : Record) (sent : List Record)
    (err : Option Error) :
    finishRun repos (record :: sent) err =
      match workerBody repos record with
      | .error p => .error p
      | .ok repos1 => finishRun repos1 sent err := by
  unfold finishRun
  rw [worker]
  cases workerBody repos record <;> rfl

theorem readLoop_skip {record : Record} (hv : validRecord record = false) (after : Reader) :
    ∀ (before : Reader) (repos : Repos),
      finishRun repos (readLoop (before ++ .ok record :: after)).1
          (readLoop (before ++ .ok record :: after)).2
        = finishRun repos (readLoop (before ++ after)).1 (readLoop (before ++ after)).2 := by
  intro before
  induction before with
  | nil =>
    intro repos
    rw [List.nil_append, List.nil_append, readLoop]
    cases hm : missingRequiredFields record with
    | true => rfl
    | false =>
      simp only [Bool.false_eq_true, if_false]
      rw [finishRun_cons, workerBody_rejected repos hm hv]
  | cons x before ih =>
    intro repos
    cases x with
    | error msg => rfl
    | ok r0 =>
      rw [List.cons_append, List.cons_append, readLoop, readLoop]
      cases hm : missingRequiredFields r0 with
      | true => exact ih repos
      | false =>
        simp only [Bool.false_eq_true, if_false]
        rw [finishRun_cons, finishRun_cons]
        cases workerBody repos r0 with
        | error p => rfl
        | ok repos1 => exact ih repos1

/-- C1, as stated, fails: two valid records of `repo1` with scores
`9223372036854775807` each leave `repo1` at `-2`, while the sum of the two
scores is `18446744073709551614`. -/
theorem readCSVConcurrently_sum_overflows :
    validRecord ["2023-01-01", "user1", "repo1", "1", "9223372036854775807", "0"] = true ∧
      recordScore ["2023-01-01", "user1", "repo1", "1", "9223372036854775807", "0"]
        = 9223372036854775807 ∧
      readCSVConcurrently
          [.ok ["timestamp", "username", "repository", "files", "additions", "deletions"],
            .ok ["2023-01-01", "user1", "repo1", "1", "9223372036854775807", "0"],
            .ok ["2023-01-02", "user2", "repo1", "1", "9223372036854775807", "0"]]
          (some [])
        = .ok (some [("repo1", { Repository := "", Score := -2 })], none) ∧
      referenceAggregate
          [["2023-01-01", "user1", "repo1", "1", "9223372036854775807", "0"],
            ["2023-01-02", "user2", "repo1", "1", "9223372036854775807", "0"]]
          "repo1"
        = some 18446744073709551614 ∧
      (GoMap.get [("repo1", { Repository := "", Score := -2 })] "repo1").map RankedRepo.Score
        ≠ referenceAggregate
            [["2023-01-01", "user1", "repo1", "1", "9223372036854775807", "0"],
              ["2023-01-02", "user2", "repo1", "1", "9223372036854775807", "0"]]
            "repo1" := by
  decide

/-- C1, amended: starting from an empty map, for every sequence of data records
after a readable header, `readCSVConcurrently` returns without error a map (one
entry per key) whose keys are exactly the repository names with at least one
valid record, each mapped to the sum of the scores of its valid records reduced
into the 64-bit range of Go's `int`; whenever that sum fits in an `int`, the
score is the sum itself. -/
theorem readCSVConcurrently_aggregate (header : Record) (records : List Record) :
    ∃ m : GoMap,
      readCSVConcurrently (.ok header :: records.map Except.ok) (some []) = .ok (some m, none) ∧
        m.WF ∧
        (∀ R, (m.get R).isSome = true ↔
          ∃ r ∈ records, validRecord r = true ∧ repositoryOf r = R) ∧
        (∀ R, (m.get R).map RankedRepo.Score = referenceAggregate64 records R) ∧
        (∀ R, IsInt64 (scoresOf records R).sum →
          (m.get R).map RankedRepo.Score = referenceAggregate records R) := by
  have hkey : ∀ R, ((records.foldl stepMap []).get R).map RankedRepo.Score
      = referenceAggregate64 records R := by
    intro R
    rw [get_foldl_stepMap, foldl_stepValue_eq, get_nil,
      foldl_mergedValue_none _ (scoresOf_isInt64 records R)]
    rfl
  refine ⟨records.foldl stepMap [], readCSVConcurrently_records header records [],
    WF_foldl_stepMap records List.nodup_nil, ?_, hkey, ?_⟩
  · intro R
    have h1 : ((records.foldl stepMap []).get R).isSome
        = (((records.foldl stepMap []).get R).map RankedRepo.Score).isSome := by
      cases (records.foldl stepMap []).get R <;> rfl
    rw [h1, hkey]
    unfold referenceAggregate64 scoresOf
    constructor
    · intro h
      by_cases hnil : records.filter (fun r => validRecord r && decide (repositoryOf r = R)) = []
      · simp [hnil] at h
      · obtain ⟨r, hr⟩ := List.exists_mem_of_ne_nil _ hnil
        rw [List.mem_filter] at hr
        refine ⟨r, hr.1, ?_⟩
        simpa using hr.2
    · rintro ⟨r, hr, hv, hR⟩
      have hmem : r ∈ records.filter (fun r => validRecord r && decide (repositoryOf r = R)) := by
        rw [List.mem_filter]
        exact ⟨hr, by simp [hv, hR]⟩
      have hne : (records.filter (fun r => validRecord r && decide (repositoryOf r = R))).map
          recordScore ≠ [] := by
        intro h
        rw [List.map_eq_nil_iff] at h
        rw [h] at hmem
        cases hmem
      simp [hne]
  · intro R hfit
    rw [hkey]
    unfold referenceAggregate64 referenceAggregate
    rw [wrap64_eq_self hfit]

/-- Witness for C1, amended: the three rows of `TestReadCSVConcurrently` give
`repo1` the score `1*10+5 + 2*20+10 = 65` and `repo2` the score `3*30+15 = 105`. -/
theorem readCSVConcurrently_aggregate_witness :
    ∃ m : GoMap,
      readCSVConcurrently
          [.ok ["timestamp", "username", "repository", "files", "additions", "deletions"],
            .ok ["2023-01-01", "user1", "repo1", "1", "10", "5"],
            .ok ["2023-01-02", "user2", "repo1", "2", "20", "10"],
            .ok ["2023-01-03", "user3", "repo2", "3", "30", "15"]]
          (some [])
        = .ok (some m, none) ∧
      (m.get "repo1").map RankedRepo.Score = some 65 ∧
      (m.get "repo2").map RankedRepo.Score = some 105 ∧
      (m.get "repo3").map RankedRepo.Score = none := by
  obtain ⟨m, hm, _, _, hsum, _⟩ := readCSVConcurrently_aggregate
    ["timestamp", "username", "repository", "files", "additions", "deletions"]
    [["2023-01-01", "user1", "repo1", "1", "10", "5"],
      ["2023-01-02", "user2", "repo1", "2", "20", "10"],
      ["2023-01-03", "user3", "repo2", "3", "30", "15"]]
  refine ⟨m, hm, ?_, ?_, ?_⟩
  · rw [hsum]
    decide
  · rw [hsum]
    decide
  · rw [hsum]
    decide

/-- C4: a rejected record (fewer than 6 fields, or an empty string at field 2,
3, 4 or 5, or a files, additions or deletions field that is not a base-10
integer or is negative) leaves the aggregate exactly as it was, whatever the
map and the other fields, without panic or error: the producer's check followed
by the worker's body returns the map unchanged, and `readCSVConcurrently` does
on an input with that record what it does on the input without it. -/
theorem processRecord_rejected (repos : Repos) (record : Record) (h : Rejected record) :
    processRecord repos record = .ok repos ∧
      ∀ (header : Record) (before after : Reader),
        readCSVConcurrently (.ok header :: (before ++ .ok record :: after)) repos
          = readCSVConcurrently (.ok header :: (before ++ after)) repos := by
  have hv := validRecord_of_rejected h
  constructor
  · rw [processRecord_eq, hv]
    rfl
  · intro header before after
    rw [readCSVConcurrently_cons, readCSVConcurrently_cons]
    exact readLoop_skip hv after before repos

/-- Witness for C4: the row `2023-01-01,user1,repo1,,10,5` of
`TestReadCSVMalformed` has an empty files field and leaves `repo1` absent. -/
theorem processRecord_rejected_witness :
    Rejected ["2023-01-01", "user1", "repo1", "", "10", "5"] ∧
      processRecord (some []) ["2023-01-01", "user1", "repo1", "", "10", "5"] = .ok (some []) ∧
      Repos.get (some []) "repo1" = none :=
  ⟨Or.inr (Or.inl (Or.inr (Or.inl rfl))),
    (processRecord_rejected (some []) ["2023-01-01", "user1", "repo1", "", "10", "5"]
      (Or.inr (Or.inl (Or.inr (Or.inl rfl))))).1, rfl⟩

/-- C5, as stated, fails: with a nil map, a readable header, the valid row
`2023-01-01,user1,repo1,1,10,5` and then a read that fails, the row is sent to
the workers and the assignment into the nil map panics; the call does not
yield a nil map with a non-nil error. -/
theorem readCSVConcurrently_failure_after_valid_row_panics :
    validRecord ["2023-01-01", "user1", "repo1", "1", "10", "5"] = true ∧
      readCSVConcurrently
          [.ok ["timestamp", "username", "repository", "files", "additions", "deletions"],
            .ok ["2023-01-01", "user1", "repo1", "1", "10", "5"],
            .error "parse error on line 3"]
          none
        = .error Panic.nilMapAssignment ∧
      readCSVConcurrently
          [.ok ["timestamp", "username", "repository", "files", "additions", "deletions"],
            .ok ["2023-01-01", "user1", "repo1", "1", "10", "5"],
            .error "parse error on line 3"]
          none
        ≠ .ok (none, some (Error.readingCSV (ReadError.other "parse error on line 3"))) := by
  decide

/-- C5, amended: a failed first read (end of input on an empty source, or any
other error) makes `readCSVConcurrently` return a nil map and a non-nil error,
whatever map it was given. A later read that fails with an error other than end
of input makes it return a nil map and a non-nil error for every prefix of
records read before the failure and whatever follows it, when the map it was
given is not nil, and also for a nil map when no record of the prefix is valid;
with a nil map and a valid record in the prefix the worker panics on the
assignment into the nil map. -/
theorem readCSVConcurrently_read_failure :
    (∀ repos : Repos,
        readCSVConcurrently [] repos = .ok (none, some (Error.readingHeader ReadError.EOF))) ∧
      (∀ (msg : String) (rest : Reader) (repos : Repos),
        readCSVConcurrently (.error msg :: rest) repos
          = .ok (none, some (Error.readingHeader (ReadError.other msg)))) ∧
      (∀ (header : Record) (before : List Record) (msg : String) (rest : Reader) (m : GoMap),
        readCSVConcurrently (.ok header :: (before.map Except.ok ++ .error msg :: rest)) (some m)
          = .ok (none, some (Error.readingCSV (ReadError.other msg)))) ∧
      (∀ (header : Record) (before : List Record) (msg : String) (rest : Reader),
        readCSVConcurrently (.ok header :: (before.map Except.ok ++ .error msg :: rest)) none
          = if before.any validRecord then .error Panic.nilMapAssignment
            else .ok (none, some (Error.readingCSV (ReadError.other msg)))) := by
  refine ⟨fun _ => rfl, fun _ _ _ => rfl, ?_, ?_⟩
  · intro header before msg rest m
    rw [readCSVConcurrently_cons, readLoop_failure]
    simp only [finishRun, worker_some m _ missing_of_mem_filter]
  · intro header before msg rest
    rw [readCSVConcurrently_cons, readLoop_failure]
    simp only [finishRun, worker_none _ missing_of_mem_filter]
    have hany : (before.filter (fun r => !missingRequiredFields r)).any validRecord
        = before.any validRecord := by
      rw [Bool.eq_iff_iff]
      simp only [List.any_eq_true, List.mem_filter]
      constructor
      · rintro ⟨r, ⟨hr, _⟩, hv⟩
        exact ⟨r, hr, hv⟩
      · rintro ⟨r, hr, hv⟩
        refine ⟨r, ⟨hr, ?_⟩, hv⟩
        cases hm : missingRequiredFields r with
        | false => rfl
        | true =>
          rw [validRecord_of_missing hm] at hv
          exact absurd hv (by decide)
    rw [hany]
    cases before.any validRecord <;> rfl

/-- C6: the worker run over a list of records as they come from the channel and
over any permutation of it, from the same initial map, gives maps with the same
keys and the same values (from a nil map both runs end the same way); and
`readCSVConcurrently` on any data records and on a permutation of them returns
maps with the same keys and the same values. -/
theorem worker_perm (records permuted : List Record) (h : records.Perm permuted) :
    ((∀ r ∈ records, missingRequiredFields r = false) →
        (∀ m : GoMap, ∃ a b : GoMap,
          worker (some m) records = .ok (some a) ∧ worker (some m) permuted = .ok (some b) ∧
            ∀ k, a.get k = b.get k) ∧
        worker none records = worker none permuted) ∧
      (∀ (header : Record) (m : GoMap), ∃ a b : GoMap,
        readCSVConcurrently (.ok header :: records.map Except.ok) (some m) = .ok (some a, none) ∧
          readCSVConcurrently (.ok header :: permuted.map Except.ok) (some m)
            = .ok (some b, none) ∧
          ∀ k, a.get k = b.get k) := by
  have hfold : ∀ (m : GoMap) k, (records.foldl stepMap m).get k = (permuted.foldl stepMap m).get k := by
    intro m k
    rw [get_foldl_stepMap, get_foldl_stepMap]
    exact foldl_stepValue_perm h k _
  refine ⟨?_, ?_⟩
  · intro hsent
    have hsent2 : ∀ r ∈ permuted, missingRequiredFields r = false :=
      fun r hr => hsent r (h.mem_iff.mpr hr)
    refine ⟨?_, ?_⟩
    · intro m
      exact ⟨_, _, worker_some m records hsent, worker_some m permuted hsent2, hfold m⟩
    · rw [worker_none records hsent, worker_none permuted hsent2, any_validRecord_perm h]
  · intro header m
    exact ⟨_, _, readCSVConcurrently_records header records m,
      readCSVConcurrently_records header permuted m, hfold m⟩

/-- Witness for C6: the rows of `TestReadCSVConcurrently` in two orders. -/
theorem worker_perm_witness :
    List.Perm
        [["2023-01-01", "user1", "repo1", "1", "10", "5"],
          ["2023-01-03", "user3", "repo2", "3", "30", "15"],
          ["2023-01-02", "user2", "repo1", "2", "20", "10"]]
        [["2023-01-03", "user3", "repo2", "3", "30", "15"],
          ["2023-01-01", "user1", "repo1", "1", "10", "5"],
          ["2023-01-02", "user2", "repo1", "2", "20", "10"]] ∧
      (∀ r ∈ [["2023-01-01", "user1", "repo1", "1", "10", "5"],
          ["2023-01-03", "user3", "repo2", "3", "30", "15"],
          ["2023-01-02", "user2", "repo1", "2", "20", "10"]], missingRequiredFields r = false) ∧
      ∃ a b : GoMap,
        worker (some [])
            [["2023-01-01", "user1", "repo1", "1", "10", "5"],
              ["2023-01-03", "user3", "repo2", "3", "30", "15"],
              ["2023-01-02", "user2", "repo1", "2", "20", "10"]] = .ok (some a) ∧
          worker (some [])
            [["2023-01-03", "user3", "repo2", "3", "30", "15"],
              ["2023-01-01", "user1", "repo1", "1", "10", "5"],
              ["2023-01-02", "user2", "repo1", "2", "20", "10"]] = .ok (some b) ∧
          ∀ k, a.get k = b.get k :=
  ⟨List.Perm.swap _ _ _, by decide,
    ((worker_perm _ _ (List.Perm.swap _ _ _)).1 (by decide)).1 []⟩

/-! ## Ranking -/

theorem GoMap.get_of_mem {m : GoMap} (h : m.WF) {k : String} {v : RankedRepo}
    (hm : (k, v) ∈ m) : m.get k = some v := by
  induction m with
  | nil => cases hm
  | cons p rest ih =>
    obtain ⟨k0, v0⟩ := p
    unfold GoMap.WF at h
    rw [List.map_cons, List.nodup_cons] at h
    rcases List.mem_cons.mp hm with hm | hm
    · cases hm
      simp [GoMap.get]
    · have hne : ¬ k0 = k := by
        intro e
        apply h.1
        rw [e]
        exact List.mem_map.mpr ⟨(k, v), hm, rfl⟩
      simp only [GoMap.get, hne, if_false]
      exact ih h.2 hm

theorem GoMap.mem_keys_of_get {m : GoMap} {k : String} (h : (m.get k).isSome = true) :
    k ∈ m.map Prod.fst := by
  induction m with
  | nil => simp [GoMap.get] at h
  | cons p rest ih =>
    obtain ⟨k0, v0⟩ := p
    by_cases hk : k0 = k
    · simp [hk]
    · simp only [GoMap.get, hk, if_false] at h
      exact List.mem_cons_of_mem _ (ih h)

theorem unsortedEntries_names (repos : Repos) :
    (unsortedEntries repos).map Entry.Name = repos.range.map Prod.fst := by
  unfold unsortedEntries
  rw [List.map_map]
  rfl

/-- C2, as stated, fails: the map with `repoB` and `repoA` both at score 1,
visited in the order `repoB`, `repoA` and sorted by the insertion sort that
`sort.Slice` runs on short slices, is returned as `repoB`, `repoA`: equal
scores, names not ascending. -/
theorem rankRepositories_ties_unordered :
    SortSliceContract insertionSortLessFunc ∧
      GoMap.WF [("repoB", { Repository := "", Score := 1 }), ("repoA", { Repository := "", Score := 1 })] ∧
      (rankRepositories insertionSortLessFunc
          (some [("repoB", { Repository := "", Score := 1 }), ("repoA", { Repository := "", Score := 1 })])).1
        = [{ Name := "repoB", Score := 1 }, { Name := "repoA", Score := 1 }] ∧
      ¬ List.Chain' ScoreThenName
        (rankRepositories insertionSortLessFunc
          (some [("repoB", { Repository := "", Score := 1 }), ("repoA", { Repository := "", Score := 1 })])).1 := by
  have hout : (rankRepositories insertionSortLessFunc
      (some [("repoB", { Repository := "", Score := 1 }), ("repoA", { Repository := "", Score := 1 })])).1
      = [{ Name := "repoB", Score := 1 }, { Name := "repoA", Score := 1 }] := by
    decide
  refine ⟨insertionSortLessFunc_contract, by decide, hout, ?_⟩
  rw [hout, List.chain'_pair]
  unfold ScoreThenName
  rw [String.lt_iff_toList_lt]
  decide

/-- C2, amended: for every aggregate map, the list returned by
`rankRepositories` is in the order "score descending": of two adjacent entries
`x` before `y`, either `x.Score > y.Score` or `x.Score = y.Score`, and more
generally no entry has a smaller score than a later one. The order of entries
with equal scores is not fixed. -/
theorem rankRepositories_score_descending
    (sortSlice : (Entry → Entry → Bool) → List Entry → List Entry)
    (hs : SortSliceContract sortSlice) (repos : Repos) :
    List.Chain' ScoreDescending (rankRepositories sortSlice repos).1 ∧
      List.Pairwise (fun x y => x.Score ≥ y.Score) (rankRepositories sortSlice repos).1 := by
  have hp := rankRepositories_pairwise hs repos
  refine ⟨List.Pairwise.chain' (hp.imp ?_), hp⟩
  intro a b hab
  unfold ScoreDescending
  omega

/-- Witness for C2, amended: the insertion sort on the scenario of the spec. -/
theorem rankRepositories_score_descending_witness :
    SortSliceContract insertionSortLessFunc ∧
      List.Chain' ScoreDescending
        (rankRepositories insertionSortLessFunc
          (some [("repo1", { Repository := "", Score := 65 }), ("repo2", { Repository := "", Score := 105 })])).1 :=
  ⟨insertionSortLessFunc_contract,
    (rankRepositories_score_descending insertionSortLessFunc insertionSortLessFunc_contract
      (some [("repo1", { Repository := "", Score := 65 }), ("repo2", { Repository := "", Score := 105 })])).1⟩

/-- C10: for every aggregate map (one entry per key), the list returned by
`rankRepositories` is a rearrangement of the map's (name, score) pairs: its
length is the number of keys, every repository name of the map occurs in it
exactly once, each entry carries the score its repository has in the map, and
the returned error is nil. -/
theorem rankRepositories_permutation
    (sortSlice : (Entry → Entry → Bool) → List Entry → List Entry)
    (hs : SortSliceContract sortSlice) (repos : Repos) (hwf : GoMap.WF repos.range) :
    (rankRepositories sortSlice repos).1.Perm
        (repos.range.map (fun p => ({ Name := p.1, Score := p.2.Score } : Entry))) ∧
      (rankRepositories sortSlice repos).1.length = repos.len ∧
      (∀ name, (repos.get name).isSome = true →
        ((rankRepositories sortSlice repos).1.map Entry.Name).count name = 1) ∧
      (∀ e ∈ (rankRepositories sortSlice repos).1,
        (repos.get e.Name).map RankedRepo.Score = some e.Score) ∧
      (rankRepositories sortSlice repos).2 = none := by
  have hp := rankRepositories_perm_unsorted hs repos
  have hrange : ∀ k, repos.get k = GoMap.get repos.range k := by
    intro k
    cases repos <;> rfl
  refine ⟨hp, ?_, ?_, ?_, rfl⟩
  · rw [hp.length_eq]
    unfold unsortedEntries
    rw [List.length_map]
    cases repos <;> rfl
  · intro name hname
    rw [(hp.map Entry.Name).count_eq, unsortedEntries_names]
    rw [hrange] at hname
    exact List.count_eq_one_of_mem hwf (GoMap.mem_keys_of_get hname)
  · intro e he
    have he' := hp.mem_iff.mp he
    unfold unsortedEntries at he'
    rw [List.mem_map] at he'
    obtain ⟨⟨k, v⟩, hmem, rfl⟩ := he'
    rw [hrange, GoMap.get_of_mem hwf hmem]
    rfl

/-- Witness for C10: the insertion sort on the scenario of the spec. -/
theorem rankRepositories_permutation_witness :
    SortSliceContract insertionSortLessFunc ∧
      GoMap.WF (Repos.range
        (some [("repo1", { Repository := "", Score := 65 }), ("repo2", { Repository := "", Score := 105 })])) ∧
      (rankRepositories insertionSortLessFunc
          (some [("repo1", { Repository := "", Score := 65 }), ("repo2", { Repository := "", Score := 105 })])).1.length
        = 2 :=
  ⟨insertionSortLessFunc_contract, by decide,
    (rankRepositories_permutation insertionSortLessFunc insertionSortLessFunc_contract
      (some [("repo1", { Repository := "", Score := 65 }), ("repo2", { Repository := "", Score := 105 })])
      (by decide)).2.1⟩

/-- C9: for a readable header row and no data record, `readCSVConcurrently`
called with an empty or nil map returns no error and a map with zero entries
(the map it was given), and `rankRepositories` on that map returns an empty
list and a nil error. -/
theorem header_only_is_empty (header : Record)
    (sortSlice : (Entry → Entry → Bool) → List Entry → List Entry)
    (hs : SortSliceContract sortSlice) (repos : Repos) (hempty : repos.len = 0) :
    ∃ out : Repos,
      readCSVConcurrently [.ok header] repos = .ok (out, none) ∧ out.len = 0 ∧
        rankRepositories sortSlice out = ([], none) := by
  refine ⟨repos, rfl, hempty, ?_⟩
  have hp := rankRepositories_perm_unsorted hs repos
  have hnil : unsortedEntries repos = [] := by
    cases repos with
    | none => rfl
    | some m =>
      have : m = [] := List.length_eq_zero.mp hempty
      subst this
      rfl
  rw [hnil] at hp
  have h1 : (rankRepositories sortSlice repos).1 = [] := List.Perm.eq_nil hp
  have h2 : (rankRepositories sortSlice repos).2 = none := rfl
  exact Prod.ext h1 h2

/-- Witness for C9: the header of `TestReadCSVEmpty` with the nil map of that
test. -/
theorem header_only_is_empty_witness :
    SortSliceContract insertionSortLessFunc ∧ Repos.len none = 0 ∧
      ∃ out : Repos,
        readCSVConcurrently
            [.ok ["timestamp", "username", "repository", "files", "additions", "deletions"]] none
          = .ok (out, none) ∧ out.len = 0 ∧
          rankRepositories insertionSortLessFunc out = ([], none) :=
  ⟨insertionSortLessFunc_contract, rfl,
    header_only_is_empty ["timestamp", "username", "repository", "files", "additions", "deletions"]
      insertionSortLessFunc insertionSortLessFunc_contract none rfl⟩

/-! ## Reporting -/

theorem reportLoop_length (TopR : Int) (ranked : List Entry) (i : Nat) :
    (reportLoop TopR i ranked).length = min (TopR - i).toNat ranked.length := by
  induction ranked generalizing i with
  | nil => simp [reportLoop]
  | cons repo rest ih =>
    unfold reportLoop
    by_cases h : (i : Int) ≥ TopR
    · rw [if_pos h]
      have : (TopR - i).toNat = 0 := by omega
      simp [this]
    · rw [if_neg h, List.length_cons, ih, List.length_cons]
      have : (TopR - (i : Int)).toNat = (TopR - ((i + 1 : Nat) : Int)).toNat + 1 := by omega
      rw [this]
      omega

theorem reportLoop_get? (TopR : Int) (ranked : List Entry) (i j : Nat) (e : Entry)
    (hj : ((i + j : Nat) : Int) < TopR) (he : ranked.get? j = some e) :
    (reportLoop TopR i ranked).get? j = some (reportLine (i + j) e) := by
  induction ranked generalizing i j with
  | nil => simp at he
  | cons repo rest ih =>
    unfold reportLoop
    have h : ¬ (i : Int) ≥ TopR := by omega
    rw [if_neg h]
    cases j with
    | zero =>
      simp only [List.get?] at he ⊢
      cases he
      rfl
    | succ j =>
      simp only [List.get?] at he ⊢
      have := ih (i + 1) j (by omega) he
      rw [this]
      congr 2
      omega

/-- C8: for every ranked list and display count `TopR >= 0`, the report loop of
`main` prints exactly `min(TopR, len(ranked))` lines, the line of rank `i + 1`
being `"<i+1>. <Name> - Score: <Score>"` (and a newline) for entry `i` of the
list; a list with no more than `TopR` entries is reported in full. -/
theorem report_top (TopR : Int) (hTopR : 0 ≤ TopR) (ranked : List Entry) :
    ((report TopR ranked).length : Int) = min TopR (ranked.length : Int) ∧
      (∀ (i : Nat) (e : Entry), (i : Int) < TopR → ranked.get? i = some e →
        (report TopR ranked).get? i
          = some (toString (i + 1) ++ ". " ++ e.Name ++ " - Score: " ++ toString e.Score ++ "\n")) ∧
      ((ranked.length : Int) ≤ TopR → (report TopR ranked).length = ranked.length) := by
  have hlen := reportLoop_length TopR ranked 0
  refine ⟨?_, ?_, ?_⟩
  · unfold report
    rw [hlen]
    simp only [Nat.cast_zero, Int.sub_zero]
    omega
  · intro i e hi he
    have := reportLoop_get? TopR ranked 0 i e (by simpa using hi) he
    unfold report
    rw [this, Nat.zero_add]
    rfl
  · intro h
    unfold report
    rw [hlen]
    simp only [Nat.cast_zero, Int.sub_zero]
    omega

/-- Witness for C8: the two top lines of a ranked list of three. -/
theorem report_top_witness :
    (0 : Int) ≤ 2 ∧
      report 2 [{ Name := "repo2", Score := 105 }, { Name := "repo1", Score := 65 },
          { Name := "repo3", Score := 7 }]
        = ["1. repo2 - Score: 105\n", "2. repo1 - Score: 65\n"] ∧
      ((report 2 [{ Name := "repo2", Score := 105 }, { Name := "repo1", Score := 65 },
          { Name := "repo3", Score := 7 }]).length : Int) = min 2 ((3 : Nat) : Int) :=
  ⟨by decide, by decide,
    (report_top 2 (by decide) [{ Name := "repo2", Score := 105 }, { Name := "repo1", Score := 65 },
      { Name := "repo3", Score := 7 }]).1⟩

end ActivityRanking
